import Mathlib

/-
Verification of the schedule data model and query engine of the
dxfeed-jni-cxx-api-samples repository.  The repository ships only the
public header `Schedule.hpp` (declarations and doc comments); the query
engine itself lives behind an opaque native handle.  Every definition
below is therefore a model of that missing engine, built from the
specification (spec.md) and the header's doc comments.
-/

namespace DxSchedule

/-- Modelled from the spec: a Session is an immutable half-open time
interval tagged with a session kind and trading eligibility flags
(spec §3); the engine behind `Schedule.hpp` is not in the sources. -/
structure Session where
  startTime : Int
  endTime : Int
  kind : Nat
  isTrading : Bool
  isRegular : Bool
deriving DecidableEq

/-- Modelled from the spec: a Day is an immutable half-open time interval
with calendar keys and an ordered, gap-free sequence of Sessions
(spec §3); the engine behind `Schedule.hpp` is not in the sources. -/
structure Day where
  startTime : Int
  endTime : Int
  dayId : Int
  yearMonthDay : Int
  sessions : List Session
deriving DecidableEq

/-- Modelled from the spec: a Schedule owns its metadata and the ordered
sequence of Days covering the supported range (spec §3); the engine
behind `Schedule.hpp` is not in the sources. -/
structure Schedule where
  name : String
  timeZoneId : String
  timeZoneDisplayName : String
  days : List Day
deriving DecidableEq

/-- Modelled from the spec: a SessionFilter is a pure predicate over
Session attributes (spec §4.2). -/
def SessionFilter : Type := Session → Bool

/-- Modelled from the spec: adjacency check for the session sequence of a
Day — session i's endTime equals session i+1's startTime (spec §3). -/
def sessionsContiguous : List Session → Bool
  | [] => true
  | [_] => true
  | a :: b :: rest => (a.endTime == b.startTime) && sessionsContiguous (b :: rest)

/-- Modelled from the spec: validity of one Day — nonempty session list
aligned with the Day interval, positive sessions, gap-free (spec §3). -/
def Day.valid (d : Day) : Bool :=
  (match d.sessions.head? with
   | some s0 => s0.startTime == d.startTime
   | none => false)
  && (match d.sessions.getLast? with
      | some sl => sl.endTime == d.endTime
      | none => false)
  && d.sessions.all (fun x => decide (x.startTime < x.endTime))
  && sessionsContiguous d.sessions

/-- Modelled from the spec: adjacency check for the Day sequence — no gap
or overlap in time, dayId advances by exactly 1, yearMonthDay strictly
increases (spec §3, §4.1). -/
def daysContiguous : List Day → Bool
  | [] => true
  | [_] => true
  | a :: b :: rest =>
      (a.endTime == b.startTime) && (a.dayId + 1 == b.dayId)
        && decide (a.yearMonthDay < b.yearMonthDay) && daysContiguous (b :: rest)

/-- Modelled from the spec: the fail-fast construction-time validation of
a Schedule (spec §4.1, §7): a nonempty Day sequence, each Day valid,
and the whole sequence contiguous. -/
def Schedule.validData (s : Schedule) : Bool :=
  !s.days.isEmpty && s.days.all Day.valid && daysContiguous s.days

/-- A Schedule that passed construction-time validation. -/
def Schedule.Built (s : Schedule) : Prop := s.validData = true

instance (s : Schedule) : Decidable s.Built := by
  unfold Schedule.Built; infer_instance

/-- Modelled from the spec: building a Schedule from parsed raw day facts
validates contiguity and fails fast on any violation (spec §4.1, §7). -/
def buildSchedule (name timeZoneId timeZoneDisplayName : String)
    (facts : List Day) : Option Schedule :=
  let s : Schedule := ⟨name, timeZoneId, timeZoneDisplayName, facts⟩
  if s.validData then some s else none

/-- Whether the half-open interval of day `d` contains instant `t`. -/
def containsTime (t : Int) (d : Day) : Bool :=
  decide (d.startTime ≤ t) && decide (t < d.endTime)

/-- Modelled from the spec: `Schedule::getDayByTime` — the Day whose
half-open interval contains the instant, not-found outside the
supported range (spec §4.1, header lines 107-116). -/
def Schedule.getDayByTime (s : Schedule) (t : Int) : Option Day :=
  s.days.find? (containsTime t)

/-- Modelled from the spec: `Schedule::getSessionByTime` — delegates to
getDayByTime, then searches that Day's session sequence for the
interval containing the instant (spec §4.1, header lines 96-105). -/
def Schedule.getSessionByTime (s : Schedule) (t : Int) : Option Session :=
  match s.getDayByTime t with
  | some d => d.sessions.find? (fun x => decide (x.startTime ≤ t) && decide (t < x.endTime))
  | none => none

/-- Modelled from the spec: `Schedule::getDayById` — an offset computation
from the first Day's id, bounds-checked against the sequence length
(spec §4.1, header lines 118-128). -/
def Schedule.getDayById (s : Schedule) (dayId : Int) : Option Day :=
  match s.days.head? with
  | none => none
  | some d0 =>
      if 0 ≤ dayId - d0.dayId then s.days[(dayId - d0.dayId).toNat]? else none

/-- Modelled from the spec: `Schedule::getDayByYearMonthDay` — the Day
with the given key if it exists, otherwise the Day with the smallest
strictly greater key, otherwise not-found (spec §4.1, header lines
130-146). -/
def Schedule.getDayByYearMonthDay (s : Schedule) (ymd : Int) : Option Day :=
  s.days.find? (fun d => decide (ymd ≤ d.yearMonthDay))

/-- Whether instant `t` lies in the supported range of schedule `s`. -/
def Schedule.inRange (s : Schedule) (t : Int) : Bool :=
  match s.days.head?, s.days.getLast? with
  | some d0, some dn => decide (d0.startTime ≤ t) && decide (t < dn.endTime)
  | _, _ => false

/-- Modelled from the spec: the suffix of the Day sequence starting at the
first Day whose end lies after `t` — the Day containing `t` when `t`
is in range, the whole sequence when `t` is before the range, empty
when `t` is at or after the end of the range (spec §4.2). -/
def daysFromTime (t : Int) : List Day → List Day
  | [] => []
  | d :: rest => if t < d.endTime then d :: rest else daysFromTime t rest

/-- Whether session `x` covers or follows instant `t` and passes `f`. -/
def sessionMatches (t : Int) (f : SessionFilter) (x : Session) : Bool :=
  decide (t < x.endTime) && f x

/-- Modelled from the spec: the nearest-session scan bound of 366
consecutive Days — one year is the contract (spec §4.2). -/
def scanBound : Nat := 366

/-- Modelled from the spec: the day-by-day forward scan of the
nearest-session search — in each Day, the first session covering or
following the anchor that passes the filter; advance across Day
boundaries until the bound is exhausted (spec §4.2). -/
def scanDays (t : Int) (f : SessionFilter) : Nat → List Day → Option Session
  | 0, _ => none
  | _ + 1, [] => none
  | n + 1, d :: rest =>
      match d.sessions.find? (sessionMatches t f) with
      | some x => some x
      | none => scanDays t f n rest

/-- Modelled from the spec: `Schedule::getNearestSessionByTime` — the
strict variant: not-found immediately when the anchor is outside the
supported range, otherwise the bounded forward scan from the Day
containing the anchor (spec §4.2, header lines 148-164). -/
def Schedule.getNearestSessionByTime (s : Schedule) (t : Int) (f : SessionFilter) :
    Option Session :=
  if s.inRange t then scanDays t f scanBound (daysFromTime t s.days) else none

/-- Modelled from the spec: `Schedule::findNearestSessionByTime` — the
permissive variant: searches forward from the nearest in-range Day
even when the anchor is outside the supported range (spec §4.2,
header lines 166-183). -/
def Schedule.findNearestSessionByTime (s : Schedule) (t : Int) (f : SessionFilter) :
    Option Session :=
  match daysFromTime t s.days with
  | [] =>
      match s.days.getLast? with
      | some dn => scanDays t f scanBound [dn]
      | none => none
  | d :: rest => scanDays t f scanBound (d :: rest)

/-- Modelled from the spec: `Schedule::getName` accessor (spec §4.3). -/
def Schedule.getName (s : Schedule) : String := s.name

/-- Modelled from the spec: `Schedule::getTimeZoneId` accessor (spec §4.3). -/
def Schedule.getTimeZoneId (s : Schedule) : String := s.timeZoneId

/-- Modelled from the spec: `Schedule::getTimeZoneDisplayName` accessor
(spec §4.3). -/
def Schedule.getTimeZoneDisplayName (s : Schedule) : String := s.timeZoneDisplayName

/-- Modelled from the spec: the DefaultsManager's process-wide cached
defaults bytes (spec §3, §4.4); the implementation behind
`Schedule::setDefaults` is not in the sources. -/
structure DefaultsManager where
  cache : List Nat
deriving DecidableEq

/-- Modelled from the spec: `Schedule::setDefaults` — validate the bytes
with the external parser (abstracted as the predicate `valid`) and
swap the cache only when valid, reporting success as a Bool
(spec §4.4, header lines 88-94). -/
def setDefaults (valid : List Nat → Bool) (m : DefaultsManager) (data : List Nat) :
    Bool × DefaultsManager :=
  if valid data then (true, { cache := data }) else (false, m)

/-- Modelled from the spec: the four download configuration states of the
DefaultsManager (spec §4.4). -/
inductive DownloadState where
  | idle : DownloadState
  | oneShot : String → DownloadState
  | periodic : String → String → DownloadState
  | auto : DownloadState
deriving DecidableEq

/-- Modelled from the spec: `Schedule::downloadDefaults` configuration
parsing — empty stops periodic download, a lone URL downloads once,
URL-comma-period starts periodic download, the word auto uses the
default location; malformed strings fall back to idle and never fail
(spec §4.4, header lines 75-86). -/
def parseDownloadConfig (config : String) : DownloadState :=
  if config = "" then DownloadState.idle
  else if config = "auto" then DownloadState.auto
  else
    match config.splitOn "," with
    | [url] => DownloadState.oneShot url
    | [url, period] => DownloadState.periodic url period
    | _ => DownloadState.idle

/- Concrete sample data used by witnesses and counterexamples. -/

/-- A sample non-trading session covering a whole day. -/
def sampleQuietSession : Session := ⟨0, 10, 0, false, false⟩

/-- A sample trading session covering a whole day. -/
def sampleTradingSession : Session := ⟨10, 20, 1, true, true⟩

/-- A sample non-trading day. -/
def sampleDayA : Day := ⟨0, 10, 1000, 10102, [sampleQuietSession]⟩

/-- A sample trading day whose yearMonthDay leaves a calendar gap. -/
def sampleDayB : Day := ⟨10, 20, 1001, 10104, [sampleTradingSession]⟩

/-- A sample two-day schedule. -/
def sampleSchedule : Schedule := ⟨"SAMPLE", "UTC", "UTC", [sampleDayA, sampleDayB]⟩

example : sampleSchedule.Built := by decide
example : sampleSchedule.getDayByTime 15 = some sampleDayB := by decide
example : sampleSchedule.getDayByYearMonthDay 10103 = some sampleDayB := by decide
example : sampleSchedule.getDayById 1001 = some sampleDayB := by decide
example : sampleSchedule.findNearestSessionByTime (-5) (fun _ => true)
    = some sampleQuietSession := by decide
example : sampleSchedule.findNearestSessionByTime 25 (fun _ => true) = none := by decide
example : sampleSchedule.getNearestSessionByTime 3 (fun x => x.isTrading)
    = some sampleTradingSession := by decide

/- Helper lemmas about the validators. -/

lemma built_spec {s : Schedule} (hb : s.Built) :
    s.days ≠ [] ∧ (∀ d ∈ s.days, Day.valid d = true) ∧ daysContiguous s.days = true := by
  have h : s.validData = true := hb
  unfold Schedule.validData at h
  simp only [Bool.and_eq_true] at h
  obtain ⟨⟨h0, h2⟩, h3⟩ := h
  refine ⟨?_, ?_, h3⟩
  · intro hnil
    rw [hnil] at h0
    simp at h0
  · intro d hd
    exact List.all_eq_true.mp h2 d hd

lemma day_valid_spec {d : Day} (h : Day.valid d = true) :
    (∃ s0, d.sessions.head? = some s0 ∧ s0.startTime = d.startTime) ∧
    (∃ sl, d.sessions.getLast? = some sl ∧ sl.endTime = d.endTime) ∧
    (∀ x ∈ d.sessions, x.startTime < x.endTime) ∧
    sessionsContiguous d.sessions = true := by
  unfold Day.valid at h
  simp only [Bool.and_eq_true] at h
  obtain ⟨⟨⟨h1, h2⟩, h3⟩, h4⟩ := h
  refine ⟨?_, ?_, ?_, h4⟩
  · cases hh : d.sessions.head? with
    | none => rw [hh] at h1; simp at h1
    | some s0 => rw [hh] at h1; exact ⟨s0, rfl, eq_of_beq h1⟩
  · cases hh : d.sessions.getLast? with
    | none => rw [hh] at h2; simp at h2
    | some sl => rw [hh] at h2; exact ⟨sl, rfl, eq_of_beq h2⟩
  · intro x hx
    have hx2 := List.all_eq_true.mp h3 x hx
    exact of_decide_eq_true hx2

lemma sessionsContiguous_cons {a b : Session} {rest : List Session}
    (h : sessionsContiguous (a :: b :: rest) = true) :
    a.endTime = b.startTime ∧ sessionsContiguous (b :: rest) = true := by
  simp only [sessionsContiguous, Bool.and_eq_true] at h
  exact ⟨eq_of_beq h.1, h.2⟩

lemma daysContiguous_cons {a b : Day} {rest : List Day}
    (h : daysContiguous (a :: b :: rest) = true) :
    a.endTime = b.startTime ∧ a.dayId + 1 = b.dayId ∧
      a.yearMonthDay < b.yearMonthDay ∧ daysContiguous (b :: rest) = true := by
  simp only [daysContiguous, Bool.and_eq_true, decide_eq_true_eq] at h
  obtain ⟨⟨⟨h1, h2⟩, h3⟩, h4⟩ := h
  exact ⟨eq_of_beq h1, eq_of_beq h2, h3, h4⟩

lemma session_end_le_getLast :
    ∀ (l : List Session), sessionsContiguous l = true →
      (∀ x ∈ l, x.startTime < x.endTime) → ∀ sl, l.getLast? = some sl →
      ∀ x ∈ l, x.endTime ≤ sl.endTime
  | [] => by intro _ _ sl hlast; simp at hlast
  | [a] => by
      intro _ _ sl hlast x hx
      simp only [List.getLast?_singleton, Option.some.injEq] at hlast
      simp only [List.mem_singleton] at hx
      subst hlast; subst hx
      exact le_refl _
  | a :: b :: rest => by
      intro hchain hlt sl hlast x hx
      obtain ⟨hab, hrest⟩ := sessionsContiguous_cons hchain
      rw [List.getLast?_cons_cons] at hlast
      have ih := session_end_le_getLast (b :: rest) hrest
        (fun y hy => hlt y (List.mem_cons_of_mem a hy)) sl hlast
      rcases List.mem_cons.mp hx with rfl | hxr
      · have hb : b.endTime ≤ sl.endTime := ih b (List.mem_cons_self b rest)
        have hltb : b.startTime < b.endTime := hlt b (by simp)
        omega
      · exact ih x hxr

lemma day_valid_start_lt_end {d : Day} (h : Day.valid d = true) :
    d.startTime < d.endTime := by
  obtain ⟨⟨s0, hh, hs0⟩, ⟨sl, hl, hsl⟩, hlt, hchain⟩ := day_valid_spec h
  have h0mem : s0 ∈ d.sessions := by
    cases hd : d.sessions with
    | nil => rw [hd] at hh; simp at hh
    | cons a l =>
        rw [hd] at hh
        simp only [List.head?_cons, Option.some.injEq] at hh
        exact hh ▸ List.mem_cons_self a l
  have h1 : s0.startTime < s0.endTime := hlt s0 h0mem
  have h2 : s0.endTime ≤ sl.endTime :=
    session_end_le_getLast d.sessions hchain hlt sl hl s0 h0mem
  omega

lemma head_start_le :
    ∀ (ds : List Day), daysContiguous ds = true → (∀ d ∈ ds, Day.valid d = true) →
      ∀ d0, ds.head? = some d0 → ∀ d ∈ ds, d0.startTime ≤ d.startTime
  | [] => by intro _ _ d0 hh; simp at hh
  | [a] => by
      intro _ _ d0 hh d hd
      simp only [List.head?_cons, Option.some.injEq] at hh
      simp only [List.mem_singleton] at hd
      subst hh; subst hd; exact le_refl _
  | a :: b :: rest => by
      intro hchain hval d0 hh d hd
      obtain ⟨hab, _, _, hrest⟩ := daysContiguous_cons hchain
      simp only [List.head?_cons, Option.some.injEq] at hh
      subst hh
      rcases List.mem_cons.mp hd with rfl | hd2
      · exact le_refl _
      · have hb := head_start_le (b :: rest) hrest
          (fun y hy => hval y (List.mem_cons_of_mem a hy)) b rfl d hd2
        have halt : a.startTime < a.endTime := day_valid_start_lt_end (hval a (by simp))
        omega

lemma end_le_getLast_end :
    ∀ (ds : List Day), daysContiguous ds = true → (∀ d ∈ ds, Day.valid d = true) →
      ∀ dn, ds.getLast? = some dn → ∀ d ∈ ds, d.endTime ≤ dn.endTime
  | [] => by intro _ _ dn hlast; simp at hlast
  | [a] => by
      intro _ _ dn hlast d hd
      simp only [List.getLast?_singleton, Option.some.injEq] at hlast
      simp only [List.mem_singleton] at hd
      subst hlast; subst hd; exact le_refl _
  | a :: b :: rest => by
      intro hchain hval dn hlast d hd
      obtain ⟨hab, _, _, hrest⟩ := daysContiguous_cons hchain
      rw [List.getLast?_cons_cons] at hlast
      have ih := end_le_getLast_end (b :: rest) hrest
        (fun y hy => hval y (List.mem_cons_of_mem a hy)) dn hlast
      rcases List.mem_cons.mp hd with rfl | hd2
      · have hb : b.endTime ≤ dn.endTime := ih b (List.mem_cons_self b rest)
        have hblt : b.startTime < b.endTime := day_valid_start_lt_end (hval b (by simp))
        omega
      · exact ih d hd2

lemma head_ymd_le :
    ∀ (ds : List Day), daysContiguous ds = true →
      ∀ d0, ds.head? = some d0 → ∀ d ∈ ds, d0.yearMonthDay ≤ d.yearMonthDay
  | [] => by intro _ d0 hh; simp at hh
  | [a] => by
      intro _ d0 hh d hd
      simp only [List.head?_cons, Option.some.injEq] at hh
      simp only [List.mem_singleton] at hd
      subst hh; subst hd; exact le_refl _
  | a :: b :: rest => by
      intro hchain d0 hh d hd
      obtain ⟨_, _, hymd, hrest⟩ := daysContiguous_cons hchain
      simp only [List.head?_cons, Option.some.injEq] at hh
      subst hh
      rcases List.mem_cons.mp hd with rfl | hd2
      · exact le_refl _
      · have hb := head_ymd_le (b :: rest) hrest b rfl d hd2
        omega

lemma ymd_le_getLast :
    ∀ (ds : List Day), daysContiguous ds = true →
      ∀ dn, ds.getLast? = some dn → ∀ d ∈ ds, d.yearMonthDay ≤ dn.yearMonthDay
  | [] => by intro _ dn hlast; simp at hlast
  | [a] => by
      intro _ dn hlast d hd
      simp only [List.getLast?_singleton, Option.some.injEq] at hlast
      simp only [List.mem_singleton] at hd
      subst hlast; subst hd; exact le_refl _
  | a :: b :: rest => by
      intro hchain dn hlast d hd
      obtain ⟨_, _, hymd, hrest⟩ := daysContiguous_cons hchain
      rw [List.getLast?_cons_cons] at hlast
      have ih := ymd_le_getLast (b :: rest) hrest dn hlast
      rcases List.mem_cons.mp hd with rfl | hd2
      · have hb := ih b (List.mem_cons_self b rest)
        omega
      · exact ih d hd2

lemma dayId_at_index :
    ∀ (ds : List Day), daysContiguous ds = true →
      ∀ (k : Nat) (hk : k < ds.length) d0, ds.head? = some d0 →
        (ds.get ⟨k, hk⟩).dayId = d0.dayId + k
  | [] => by intro _ k hk; simp at hk
  | [a] => by
      intro _ k hk d0 hh
      simp only [List.head?_cons, Option.some.injEq] at hh
      subst hh
      have hk0 : k = 0 := by
        simp only [List.length_singleton] at hk
        omega
      subst hk0
      simp
  | a :: b :: rest => by
      intro hchain k hk d0 hh
      obtain ⟨_, hid, _, hrest⟩ := daysContiguous_cons hchain
      simp only [List.head?_cons, Option.some.injEq] at hh
      subst hh
      cases k with
      | zero => simp
      | succ k =>
          have hk2 : k < (b :: rest).length := Nat.lt_of_succ_lt_succ hk
          have ih := dayId_at_index (b :: rest) hrest k hk2 b rfl
          have hget : ((a :: b :: rest).get ⟨k + 1, hk⟩) = (b :: rest).get ⟨k, hk2⟩ := rfl
          rw [hget, ih]
          omega

lemma find_contains_of_mem :
    ∀ (ds : List Day), daysContiguous ds = true → (∀ d ∈ ds, Day.valid d = true) →
      ∀ (t : Int) (d2 : Day), d2 ∈ ds → d2.startTime ≤ t → t < d2.endTime →
        ds.find? (containsTime t) = some d2
  | [] => by intro _ _ t d2 hmem; simp at hmem
  | a :: rest => by
      intro hchain hval t d2 hmem hle hlt
      rcases List.mem_cons.mp hmem with rfl | hmem2
      · have hp : containsTime t d2 = true := by
          unfold containsTime
          simp only [Bool.and_eq_true, decide_eq_true_eq]
          exact ⟨hle, hlt⟩
        exact List.find?_cons_of_pos rest hp
      · cases rest with
        | nil => simp at hmem2
        | cons b r =>
            obtain ⟨hab, _, _, hrest⟩ := daysContiguous_cons hchain
            have hval2 : ∀ y ∈ b :: r, Day.valid y = true :=
              fun y hy => hval y (List.mem_cons_of_mem a hy)
            have hbstart : b.startTime ≤ d2.startTime :=
              head_start_le (b :: r) hrest hval2 b rfl d2 hmem2
            have hnot : ¬ containsTime t a = true := by
              unfold containsTime
              simp only [Bool.and_eq_true, decide_eq_true_eq]
              rintro ⟨_, h2⟩
              omega
            rw [List.find?_cons_of_neg (b :: r) hnot]
            exact find_contains_of_mem (b :: r) hrest hval2 t d2 hmem2 hle hlt

lemma find_contains_in_range :
    ∀ (ds : List Day), daysContiguous ds = true → (∀ d ∈ ds, Day.valid d = true) →
      ∀ (t : Int) (d0 dn : Day), ds.head? = some d0 → ds.getLast? = some dn →
        d0.startTime ≤ t → t < dn.endTime →
        ∃ d2 ∈ ds, d2.startTime ≤ t ∧ t < d2.endTime
  | [] => by intro _ _ t d0 dn hh; simp at hh
  | a :: rest => by
      intro hchain hval t d0 dn hh hlast hle hlt
      simp only [List.head?_cons, Option.some.injEq] at hh
      subst hh
      by_cases hta : t < a.endTime
      · exact ⟨a, by simp, hle, hta⟩
      · cases rest with
        | nil =>
            simp only [List.getLast?_singleton, Option.some.injEq] at hlast
            subst hlast
            exact absurd hlt hta
        | cons b r =>
            obtain ⟨hab, _, _, hrest⟩ := daysContiguous_cons hchain
            rw [List.getLast?_cons_cons] at hlast
            have hval2 : ∀ y ∈ b :: r, Day.valid y = true :=
              fun y hy => hval y (List.mem_cons_of_mem a hy)
            have hble : b.startTime ≤ t := by omega
            obtain ⟨d2, hd2, h1, h2⟩ :=
              find_contains_in_range (b :: r) hrest hval2 t b dn rfl hlast hble hlt
            exact ⟨d2, List.mem_cons_of_mem a hd2, h1, h2⟩

/- Helper lemmas about daysFromTime and scanDays. -/

lemma daysFromTime_eq_nil {t : Int} :
    ∀ (ds : List Day), (∀ d ∈ ds, d.endTime ≤ t) → daysFromTime t ds = []
  | [] => by intro _; rfl
  | a :: rest => by
      intro hall
      have ha : a.endTime ≤ t := hall a (by simp)
      have hnot : ¬ t < a.endTime := by omega
      simp only [daysFromTime, if_neg hnot]
      exact daysFromTime_eq_nil rest fun d hd => hall d (List.mem_cons_of_mem a hd)

lemma daysFromTime_ne_nil {t : Int} :
    ∀ (ds : List Day) (dn : Day), ds.getLast? = some dn → t < dn.endTime →
      daysFromTime t ds ≠ []
  | [] => by intro dn hlast; simp at hlast
  | [a] => by
      intro dn hlast hlt
      simp only [List.getLast?_singleton, Option.some.injEq] at hlast
      subst hlast
      simp only [daysFromTime, if_pos hlt]
      simp
  | a :: b :: rest => by
      intro dn hlast hlt
      rw [List.getLast?_cons_cons] at hlast
      by_cases hta : t < a.endTime
      · simp only [daysFromTime, if_pos hta]
        simp
      · simp only [daysFromTime, if_neg hta]
        exact daysFromTime_ne_nil (b :: rest) dn hlast hlt

lemma daysFromTime_head_contains {t : Int} :
    ∀ (ds : List Day), daysContiguous ds = true → (∀ d ∈ ds, Day.valid d = true) →
      ∀ d0, ds.head? = some d0 → d0.startTime ≤ t →
      ∀ d, (daysFromTime t ds).head? = some d → d.startTime ≤ t ∧ t < d.endTime
  | [] => by intro _ _ d0 hh; simp at hh
  | a :: rest => by
      intro hchain hval d0 hh hle d hd
      simp only [List.head?_cons, Option.some.injEq] at hh
      subst hh
      by_cases hta : t < a.endTime
      · simp only [daysFromTime, if_pos hta, List.head?_cons, Option.some.injEq] at hd
        subst hd
        exact ⟨hle, hta⟩
      · simp only [daysFromTime, if_neg hta] at hd
        cases rest with
        | nil => simp [daysFromTime] at hd
        | cons b r =>
            obtain ⟨hab, _, _, hrest⟩ := daysContiguous_cons hchain
            have hval2 : ∀ y ∈ b :: r, Day.valid y = true :=
              fun y hy => hval y (List.mem_cons_of_mem a hy)
            have hble : b.startTime ≤ t := by omega
            exact daysFromTime_head_contains (b :: r) hrest hval2 b rfl hble d hd

lemma daysFromTime_mem {t : Int} :
    ∀ (ds : List Day), ∀ d ∈ daysFromTime t ds, d ∈ ds
  | [] => by intro d hd; simp [daysFromTime] at hd
  | a :: rest => by
      intro d hd
      by_cases hta : t < a.endTime
      · simp only [daysFromTime, if_pos hta] at hd
        exact hd
      · simp only [daysFromTime, if_neg hta] at hd
        exact List.mem_cons_of_mem a (daysFromTime_mem rest d hd)

lemma daysFromTime_full {t : Int} :
    ∀ (ds : List Day) (d0 : Day), ds.head? = some d0 → t < d0.startTime →
      (∀ d ∈ ds, Day.valid d = true) → daysContiguous ds = true →
      daysFromTime t ds = ds := by
  intro ds d0 hh hlt hval hchain
  cases ds with
  | nil => rfl
  | cons a rest =>
      simp only [List.head?_cons, Option.some.injEq] at hh
      subst hh
      have ha : a.startTime < a.endTime := day_valid_start_lt_end (hval a (by simp))
      have hta : t < a.endTime := by omega
      simp only [daysFromTime, if_pos hta]

lemma scanDays_eq_none_iff {t : Int} {f : SessionFilter} :
    ∀ (n : Nat) (ds : List Day),
      scanDays t f n ds = none ↔
        ∀ d ∈ ds.take n, d.sessions.find? (sessionMatches t f) = none
  | 0, ds => by simp [scanDays]
  | n + 1, [] => by simp [scanDays]
  | n + 1, d :: rest => by
      rw [List.take_succ_cons]
      cases hf : d.sessions.find? (sessionMatches t f) with
      | some x =>
          simp only [scanDays, hf]
          constructor
          · intro hcontra; exact absurd hcontra (by simp)
          · intro hall
            have := hall d (by simp)
            rw [this] at hf
            exact absurd hf (by simp)
      | none =>
          simp only [scanDays, hf]
          rw [scanDays_eq_none_iff n rest]
          constructor
          · intro hall d2 hd2
            rcases List.mem_cons.mp hd2 with rfl | hd3
            · exact hf
            · exact hall d2 hd3
          · intro hall d2 hd2
            exact hall d2 (List.mem_cons_of_mem d hd2)

lemma scanDays_some_mem {t : Int} {f : SessionFilter} :
    ∀ (n : Nat) (ds : List Day) (r : Session), scanDays t f n ds = some r →
      ∃ d ∈ ds.take n, r ∈ d.sessions ∧ t < r.endTime ∧ f r = true
  | 0, ds, r => by simp [scanDays]
  | n + 1, [], r => by simp [scanDays]
  | n + 1, d :: rest, r => by
      intro hscan
      rw [List.take_succ_cons]
      cases hf : d.sessions.find? (sessionMatches t f) with
      | some x =>
          simp only [scanDays, hf, Option.some.injEq] at hscan
          subst hscan
          have hmem : x ∈ d.sessions := List.mem_of_find?_eq_some hf
          have hp : sessionMatches t f x = true := List.find?_some hf
          simp only [sessionMatches, Bool.and_eq_true, decide_eq_true_eq] at hp
          exact ⟨d, by simp, hmem, hp.1, hp.2⟩
      | none =>
          simp only [scanDays, hf] at hscan
          obtain ⟨d2, hd2, hrest⟩ := scanDays_some_mem n rest r hscan
          exact ⟨d2, List.mem_cons_of_mem d hd2, hrest⟩

lemma mem_of_getLast_some {α : Type} {l : List α} {a : α} (h : l.getLast? = some a) :
    a ∈ l := by
  obtain ⟨hne, heq⟩ := List.mem_getLast?_eq_getLast (Option.mem_def.mpr h)
  rw [heq]
  exact List.getLast_mem hne

lemma getLast_dayId (ds : List Day) (hchain : daysContiguous ds = true)
    (d0 dn : Day) (hh : ds.head? = some d0) (hl : ds.getLast? = some dn) :
    dn.dayId = d0.dayId + ((ds.length - 1 : Nat) : Int) := by
  cases hlen : ds.length with
  | zero =>
      cases ds with
      | nil => simp at hh
      | cons a rest => simp at hlen
  | succ m =>
      have hk : m < ds.length := by omega
      have hget : ds.get ⟨m, hk⟩ = dn := by
        rw [List.getLast?_eq_getElem?, hlen] at hl
        simp only [Nat.succ_sub_one] at hl
        rw [List.getElem?_eq_getElem hk] at hl
        exact Option.some.inj hl
      have := dayId_at_index ds hchain m hk d0 hh
      rw [hget] at this
      omega

lemma find_ymd_first :
    ∀ (ds : List Day), daysContiguous ds = true →
      ∀ (ymd : Int), (∃ d ∈ ds, ymd ≤ d.yearMonthDay) →
        ∃ d, ds.find? (fun d2 => decide (ymd ≤ d2.yearMonthDay)) = some d ∧ d ∈ ds ∧
          ymd ≤ d.yearMonthDay ∧
          ∀ d2 ∈ ds, ymd ≤ d2.yearMonthDay → d.yearMonthDay ≤ d2.yearMonthDay
  | [] => by intro _ ymd hex; simp at hex
  | a :: rest => by
      intro hchain ymd hex
      by_cases ha : ymd ≤ a.yearMonthDay
      · refine ⟨a, List.find?_cons_of_pos rest (decide_eq_true ha), by simp, ha, ?_⟩
        intro d2 hd2 _
        exact head_ymd_le (a :: rest) hchain a rfl d2 hd2
      · have hnot : ¬ (decide (ymd ≤ a.yearMonthDay) = true) := by
          simp only [decide_eq_true_eq]
          exact ha
        rw [List.find?_cons_of_neg rest hnot]
        have hex2 : ∃ d ∈ rest, ymd ≤ d.yearMonthDay := by
          obtain ⟨d, hd, hdy⟩ := hex
          rcases List.mem_cons.mp hd with rfl | hd2
          · exact absurd hdy ha
          · exact ⟨d, hd2, hdy⟩
        cases rest with
        | nil => simp at hex2
        | cons b r =>
            obtain ⟨_, _, _, hrest⟩ := daysContiguous_cons hchain
            obtain ⟨d, hfind, hmem, hdy, hmin⟩ := find_ymd_first (b :: r) hrest ymd hex2
            refine ⟨d, hfind, List.mem_cons_of_mem a hmem, hdy, ?_⟩
            intro d2 hd2 hdy2
            rcases List.mem_cons.mp hd2 with rfl | hd3
            · exact absurd hdy2 ha
            · exact hmin d2 hd3 hdy2

lemma sessionsContiguous_index :
    ∀ (l : List Session), sessionsContiguous l = true →
      ∀ (i : Nat) (h : i + 1 < l.length),
        (l.get ⟨i, Nat.lt_of_succ_lt h⟩).endTime = (l.get ⟨i + 1, h⟩).startTime
  | [] => by intro _ i h; simp at h
  | [a] => by
      intro _ i h
      simp only [List.length_singleton] at h
      omega
  | a :: b :: rest => by
      intro hchain i h
      obtain ⟨hab, hrest⟩ := sessionsContiguous_cons hchain
      cases i with
      | zero => exact hab
      | succ i =>
          have h2 : i + 1 < (b :: rest).length := Nat.lt_of_succ_lt_succ h
          exact sessionsContiguous_index (b :: rest) hrest i h2

/- Claim theorems. -/

/-- C1: for every instant t within the supported date range, getDayByTime t
returns exactly one Day, and that Day's half-open interval from startTime
to endTime contains t. -/
theorem getDayByTime_inRange_contains (s : Schedule) (t : Int)
    (hb : s.Built) (hin : s.inRange t = true) :
    ∃ d, s.getDayByTime t = some d ∧ d.startTime ≤ t ∧ t < d.endTime ∧
      ∀ d2 ∈ s.days, d2.startTime ≤ t → t < d2.endTime → d2 = d := by
  obtain ⟨hne, hval, hchain⟩ := built_spec hb
  unfold Schedule.inRange at hin
  cases hh : s.days.head? with
  | none => rw [hh] at hin; simp at hin
  | some d0 =>
      cases hl : s.days.getLast? with
      | none => rw [hh, hl] at hin; simp at hin
      | some dn =>
          rw [hh, hl] at hin
          simp only [Bool.and_eq_true, decide_eq_true_eq] at hin
          obtain ⟨h1, h2⟩ := hin
          obtain ⟨d, hmem, hdle, hdlt⟩ :=
            find_contains_in_range s.days hchain hval t d0 dn hh hl h1 h2
          have hfind := find_contains_of_mem s.days hchain hval t d hmem hdle hdlt
          refine ⟨d, hfind, hdle, hdlt, ?_⟩
          intro d2 hd2 hle2 hlt2
          have hfind2 := find_contains_of_mem s.days hchain hval t d2 hd2 hle2 hlt2
          rw [hfind] at hfind2
          exact (Option.some.inj hfind2).symm

/-- C1 witness: the theorem applied to the sample schedule at instant 15. -/
theorem getDayByTime_inRange_contains_witness :
    ∃ d, sampleSchedule.getDayByTime 15 = some d ∧ d.startTime ≤ 15 ∧ 15 < d.endTime ∧
      ∀ d2 ∈ sampleSchedule.days, d2.startTime ≤ 15 → 15 < d2.endTime → d2 = d :=
  getDayByTime_inRange_contains sampleSchedule 15 (by decide) (by decide)

/-- C5: for a yearMonthDay value with no exactly matching Day,
getDayByYearMonthDay returns the Day with the smallest yearMonthDay
strictly greater than the requested value when one exists, and not-found
otherwise; a non-existent date is never an error. -/
theorem getDayByYearMonthDay_forward_rounding (s : Schedule) (ymd : Int) (hb : s.Built)
    (hne : ∀ d ∈ s.days, d.yearMonthDay ≠ ymd) :
    ((∃ d ∈ s.days, ymd < d.yearMonthDay) →
        ∃ d, s.getDayByYearMonthDay ymd = some d ∧ d ∈ s.days ∧ ymd < d.yearMonthDay ∧
          ∀ d2 ∈ s.days, ymd < d2.yearMonthDay → d.yearMonthDay ≤ d2.yearMonthDay) ∧
    ((∀ d ∈ s.days, d.yearMonthDay < ymd) → s.getDayByYearMonthDay ymd = none) := by
  obtain ⟨hnil, hval, hchain⟩ := built_spec hb
  constructor
  · intro hex
    have hex2 : ∃ d ∈ s.days, ymd ≤ d.yearMonthDay := by
      obtain ⟨d, hd, hdy⟩ := hex
      exact ⟨d, hd, le_of_lt hdy⟩
    obtain ⟨d, hfind, hmem, hdy, hmin⟩ := find_ymd_first s.days hchain ymd hex2
    have hstrict : ymd < d.yearMonthDay := lt_of_le_of_ne hdy (Ne.symm (hne d hmem))
    refine ⟨d, hfind, hmem, hstrict, ?_⟩
    intro d2 hd2 hdy2
    exact hmin d2 hd2 (le_of_lt hdy2)
  · intro hall
    unfold Schedule.getDayByYearMonthDay
    rw [List.find?_eq_none]
    intro d hd
    simp only [decide_eq_true_eq]
    have := hall d hd
    omega

/-- C5 witness: the theorem applied to the sample schedule at the missing
yearMonthDay key 10103, which forward-rounds to the day keyed 10104. -/
theorem getDayByYearMonthDay_forward_rounding_witness :
    ((∃ d ∈ sampleSchedule.days, 10103 < d.yearMonthDay) →
        ∃ d, sampleSchedule.getDayByYearMonthDay 10103 = some d ∧ d ∈ sampleSchedule.days ∧
          10103 < d.yearMonthDay ∧
          ∀ d2 ∈ sampleSchedule.days, 10103 < d2.yearMonthDay →
            d.yearMonthDay ≤ d2.yearMonthDay) ∧
    ((∀ d ∈ sampleSchedule.days, d.yearMonthDay < 10103) →
        sampleSchedule.getDayByYearMonthDay 10103 = none) :=
  getDayByYearMonthDay_forward_rounding sampleSchedule 10103 (by decide) (by decide)

/-- C6: getDayById and getDayByTime agree — for every Day d of a built
Schedule, getDayById at d.dayId returns the same result as getDayByTime
at d.startTime. -/
theorem getDayById_agrees_with_getDayByTime (s : Schedule) (hb : s.Built) :
    ∀ d ∈ s.days, s.getDayById d.dayId = s.getDayByTime d.startTime := by
  obtain ⟨hne, hval, hchain⟩ := built_spec hb
  intro d hd
  obtain ⟨⟨k, hk⟩, hget⟩ := List.mem_iff_get.mp hd
  cases hh : s.days.head? with
  | none =>
      cases hds : s.days with
      | nil => exact absurd hds hne
      | cons a rest => rw [hds] at hh; simp at hh
  | some d0 =>
      have hid : d.dayId = d0.dayId + (k : Int) := by
        rw [← hget]
        exact dayId_at_index s.days hchain k hk d0 hh
      simp only [List.get_eq_getElem] at hget
      have hby : s.getDayById d.dayId = some d := by
        unfold Schedule.getDayById
        rw [hh]
        show (if 0 ≤ d.dayId - d0.dayId then s.days[(d.dayId - d0.dayId).toNat]? else none)
            = some d
        have h0 : (0 : Int) ≤ d.dayId - d0.dayId := by omega
        rw [if_pos h0]
        have hkk : (d.dayId - d0.dayId).toNat = k := by omega
        rw [hkk, List.getElem?_eq_getElem hk, hget]
      have hstart : d.startTime < d.endTime := day_valid_start_lt_end (hval d hd)
      have hbt : s.getDayByTime d.startTime = some d := by
        unfold Schedule.getDayByTime
        exact find_contains_of_mem s.days hchain hval d.startTime d hd (le_refl _) hstart
      rw [hby, hbt]

/-- C6 witness: the theorem applied to the sample schedule's second day,
whose dayId is 1001 and whose startTime is 10. -/
theorem getDayById_agrees_with_getDayByTime_witness :
    sampleSchedule.getDayById 1001 = sampleSchedule.getDayByTime 10 :=
  getDayById_agrees_with_getDayByTime sampleSchedule (by decide) sampleDayB (by decide)

/-- C2 counterexample: the blanket out-of-range-key guarantee fails on the
permissive entry points — for the sample schedule (whose range starts at
instant 0 and at yearMonthDay 10102), the below-range anchor instant -5
makes findNearestSessionByTime return a Session, and the below-range key
9999 makes getDayByYearMonthDay return the first Day, not not-found. -/
theorem outOfRange_blanket_counterexample :
    sampleSchedule.Built ∧
    (-5 : Int) < sampleDayA.startTime ∧
    sampleSchedule.findNearestSessionByTime (-5) (fun _ => true) = some sampleQuietSession ∧
    (9999 : Int) < sampleDayA.yearMonthDay ∧
    sampleSchedule.getDayByYearMonthDay 9999 = some sampleDayA := by
  refine ⟨by decide, by decide, by decide, by decide, by decide⟩

/-- C2 (amended): for keys resolving outside the supported range the strict
lookup entry points (getDayByTime, getSessionByTime, getDayById,
getNearestSessionByTime) return not-found, getDayByYearMonthDay returns
not-found for keys above the range, and findNearestSessionByTime returns
not-found for instants at or above the range end; below-range keys to the
two permissive entry points instead resolve forward into the range. -/
theorem outOfRange_lookups_not_found (s : Schedule) (t dayId ymd : Int) (f : SessionFilter)
    (hb : s.Built) (d0 dn : Day)
    (hh : s.days.head? = some d0) (hl : s.days.getLast? = some dn) :
    ((t < d0.startTime ∨ dn.endTime ≤ t) →
       s.getDayByTime t = none ∧ s.getSessionByTime t = none ∧
       s.getNearestSessionByTime t f = none) ∧
    ((dayId < d0.dayId ∨ dn.dayId < dayId) → s.getDayById dayId = none) ∧
    (dn.yearMonthDay < ymd → s.getDayByYearMonthDay ymd = none) ∧
    (dn.endTime ≤ t → s.findNearestSessionByTime t f = none) := by
  obtain ⟨hne, hval, hchain⟩ := built_spec hb
  refine ⟨?_, ?_, ?_, ?_⟩
  · intro hcase
    have hbt : s.getDayByTime t = none := by
      unfold Schedule.getDayByTime
      rw [List.find?_eq_none]
      intro d hd
      unfold containsTime
      simp only [Bool.and_eq_true, decide_eq_true_eq, not_and]
      intro hles
      rcases hcase with h1 | h2
      · have := head_start_le s.days hchain hval d0 hh d hd
        omega
      · have := end_le_getLast_end s.days hchain hval dn hl d hd
        omega
    refine ⟨hbt, ?_, ?_⟩
    · unfold Schedule.getSessionByTime
      rw [hbt]
    · have hr : s.inRange t = false := by
        unfold Schedule.inRange
        rw [hh, hl]
        rcases hcase with h1 | h2
        · have hn : ¬ (d0.startTime ≤ t) := by omega
          simp [hn]
        · have hn : ¬ (t < dn.endTime) := by omega
          simp [hn]
      simp [Schedule.getNearestSessionByTime, hr]
  · intro hcase
    unfold Schedule.getDayById
    rw [hh]
    show (if 0 ≤ dayId - d0.dayId then s.days[(dayId - d0.dayId).toNat]? else none) = none
    rcases hcase with h1 | h2
    · have hn : ¬ ((0 : Int) ≤ dayId - d0.dayId) := by omega
      rw [if_neg hn]
    · have hdn := getLast_dayId s.days hchain d0 dn hh hl
      have hlenpos : 0 < s.days.length := List.length_pos.mpr hne
      have h0 : (0 : Int) ≤ dayId - d0.dayId := by omega
      rw [if_pos h0]
      have hge : s.days.length ≤ (dayId - d0.dayId).toNat := by omega
      exact List.getElem?_eq_none hge
  · intro hcase
    unfold Schedule.getDayByYearMonthDay
    rw [List.find?_eq_none]
    intro d hd
    simp only [decide_eq_true_eq]
    have := ymd_le_getLast s.days hchain dn hl d hd
    omega
  · intro hget
    have hall : ∀ d ∈ s.days, d.endTime ≤ t := fun d hd =>
      le_trans (end_le_getLast_end s.days hchain hval dn hl d hd) hget
    have hnil2 : daysFromTime t s.days = [] := daysFromTime_eq_nil s.days hall
    unfold Schedule.findNearestSessionByTime
    simp only [hnil2, hl]
    rw [scanDays_eq_none_iff]
    intro d hd
    have hd2 : d = dn := by
      simp only [scanBound] at hd
      simp at hd
      exact hd
    subst hd2
    rw [List.find?_eq_none]
    intro x hx hcontra
    obtain ⟨_, ⟨sl, hsl, hsle⟩, hlt, hchain2⟩ :=
      day_valid_spec (hval d (mem_of_getLast_some hl))
    have hxe : x.endTime ≤ sl.endTime :=
      session_end_le_getLast d.sessions hchain2 hlt sl hsl x hx
    simp only [sessionMatches, Bool.and_eq_true, decide_eq_true_eq] at hcontra
    obtain ⟨ht2, _⟩ := hcontra
    omega

/-- C2 (amended) witness: the theorem applied to the sample schedule at
above-range instant 25, above-range dayId 2000 and above-range
yearMonthDay 99999. -/
theorem outOfRange_lookups_not_found_witness :
    ((25 < sampleDayA.startTime ∨ sampleDayB.endTime ≤ 25) →
       sampleSchedule.getDayByTime 25 = none ∧ sampleSchedule.getSessionByTime 25 = none ∧
       sampleSchedule.getNearestSessionByTime 25 (fun _ => true) = none) ∧
    ((2000 < sampleDayA.dayId ∨ sampleDayB.dayId < 2000) →
       sampleSchedule.getDayById 2000 = none) ∧
    (sampleDayB.yearMonthDay < 99999 → sampleSchedule.getDayByYearMonthDay 99999 = none) ∧
    (sampleDayB.endTime ≤ 25 → sampleSchedule.findNearestSessionByTime 25 (fun _ => true) = none) :=
  outOfRange_lookups_not_found sampleSchedule 25 2000 99999 (fun _ => true)
    (by decide) sampleDayA sampleDayB (by decide) (by decide)

/-- C3: for every in-range anchor instant and filter,
findNearestSessionByTime starts at the Day containing the anchor, any
returned Session lies within the first 366 scanned Days and satisfies the
filter, and when no Session in that 366-Day window satisfies the filter
the result is not-found rather than a continued scan. -/
theorem findNearestSessionByTime_bounded_scan (s : Schedule) (t : Int) (f : SessionFilter)
    (hb : s.Built) (hin : s.inRange t = true) :
    (∃ d, (daysFromTime t s.days).head? = some d ∧ d.startTime ≤ t ∧ t < d.endTime) ∧
    (∀ r, s.findNearestSessionByTime t f = some r →
        ∃ d ∈ (daysFromTime t s.days).take scanBound,
          r ∈ d.sessions ∧ t < r.endTime ∧ f r = true) ∧
    ((∀ d ∈ (daysFromTime t s.days).take scanBound,
        ∀ x ∈ d.sessions, t < x.endTime → f x = false) →
      s.findNearestSessionByTime t f = none) := by
  obtain ⟨hne, hval, hchain⟩ := built_spec hb
  unfold Schedule.inRange at hin
  cases hh : s.days.head? with
  | none => rw [hh] at hin; simp at hin
  | some d0 =>
      cases hl : s.days.getLast? with
      | none => rw [hh, hl] at hin; simp at hin
      | some dn =>
          rw [hh, hl] at hin
          simp only [Bool.and_eq_true, decide_eq_true_eq] at hin
          obtain ⟨h1, h2⟩ := hin
          have hne2 : daysFromTime t s.days ≠ [] := daysFromTime_ne_nil s.days dn hl h2
          have hfn : s.findNearestSessionByTime t f
              = scanDays t f scanBound (daysFromTime t s.days) := by
            unfold Schedule.findNearestSessionByTime
            cases hd : daysFromTime t s.days with
            | nil => exact absurd hd hne2
            | cons a rest => rfl
          refine ⟨?_, ?_, ?_⟩
          · cases hdf : (daysFromTime t s.days).head? with
            | none =>
                cases hdd : daysFromTime t s.days with
                | nil => exact absurd hdd hne2
                | cons a rest => rw [hdd] at hdf; simp at hdf
            | some dstart =>
                have hcont :=
                  daysFromTime_head_contains s.days hchain hval d0 hh h1 dstart hdf
                exact ⟨dstart, rfl, hcont.1, hcont.2⟩
          · intro r hr
            rw [hfn] at hr
            exact scanDays_some_mem scanBound (daysFromTime t s.days) r hr
          · intro hall
            rw [hfn, scanDays_eq_none_iff]
            intro d hd
            rw [List.find?_eq_none]
            intro x hx hcontra
            simp only [sessionMatches, Bool.and_eq_true, decide_eq_true_eq] at hcontra
            have hfx := hall d hd x hx hcontra.1
            rw [hfx] at hcontra
            exact absurd hcontra.2 (by simp)

/-- C3 witness: the theorem applied to the sample schedule at in-range
anchor 3 with the trading filter. -/
theorem findNearestSessionByTime_bounded_scan_witness :
    (∃ d, (daysFromTime 3 sampleSchedule.days).head? = some d ∧
        d.startTime ≤ 3 ∧ 3 < d.endTime) ∧
    (∀ r, sampleSchedule.findNearestSessionByTime 3 (fun x => x.isTrading) = some r →
        ∃ d ∈ (daysFromTime 3 sampleSchedule.days).take scanBound,
          r ∈ d.sessions ∧ 3 < r.endTime ∧ (fun x => x.isTrading) r = true) ∧
    ((∀ d ∈ (daysFromTime 3 sampleSchedule.days).take scanBound,
        ∀ x ∈ d.sessions, 3 < x.endTime → (fun x => x.isTrading) x = false) →
      sampleSchedule.findNearestSessionByTime 3 (fun x => x.isTrading) = none) :=
  findNearestSessionByTime_bounded_scan sampleSchedule 3 (fun x => x.isTrading)
    (by decide) (by decide)

/-- C4: the two nearest-session entry points agree for every in-range
anchor instant and filter; for an out-of-range anchor
getNearestSessionByTime returns not-found immediately, while
findNearestSessionByTime still searches forward from the nearest in-range
Day — in particular, for a below-range anchor it scans the whole Day
sequence from the first Day. -/
theorem nearest_session_variants_agree (s : Schedule) (t : Int) (f : SessionFilter)
    (hb : s.Built) :
    (s.inRange t = true →
       s.getNearestSessionByTime t f = s.findNearestSessionByTime t f) ∧
    (s.inRange t = false → s.getNearestSessionByTime t f = none) ∧
    (∀ d0, s.days.head? = some d0 → t < d0.startTime →
       s.findNearestSessionByTime t f = scanDays t f scanBound s.days) := by
  obtain ⟨hne, hval, hchain⟩ := built_spec hb
  refine ⟨?_, ?_, ?_⟩
  · intro hin
    have hin2 := hin
    unfold Schedule.inRange at hin2
    cases hh : s.days.head? with
    | none => rw [hh] at hin2; simp at hin2
    | some d0 =>
        cases hl : s.days.getLast? with
        | none => rw [hh, hl] at hin2; simp at hin2
        | some dn =>
            rw [hh, hl] at hin2
            simp only [Bool.and_eq_true, decide_eq_true_eq] at hin2
            have hne2 : daysFromTime t s.days ≠ [] :=
              daysFromTime_ne_nil s.days dn hl hin2.2
            unfold Schedule.getNearestSessionByTime
            rw [if_pos hin]
            unfold Schedule.findNearestSessionByTime
            cases hd : daysFromTime t s.days with
            | nil => exact absurd hd hne2
            | cons a rest => rfl
  · intro hr
    simp [Schedule.getNearestSessionByTime, hr]
  · intro d0 hh hlt
    have hfull := daysFromTime_full s.days d0 hh hlt hval hchain
    unfold Schedule.findNearestSessionByTime
    rw [hfull]
    cases hds : s.days with
    | nil => exact absurd hds hne
    | cons b r => rfl

/-- C4 witness: the theorem applied to the sample schedule at in-range
anchor 5 with the all-sessions filter. -/
theorem nearest_session_variants_agree_witness :
    (sampleSchedule.inRange 5 = true →
       sampleSchedule.getNearestSessionByTime 5 (fun _ => true)
         = sampleSchedule.findNearestSessionByTime 5 (fun _ => true)) ∧
    (sampleSchedule.inRange 5 = false →
       sampleSchedule.getNearestSessionByTime 5 (fun _ => true) = none) ∧
    (∀ d0, sampleSchedule.days.head? = some d0 → 5 < d0.startTime →
       sampleSchedule.findNearestSessionByTime 5 (fun _ => true)
         = scanDays 5 (fun _ => true) scanBound sampleSchedule.days) :=
  nearest_session_variants_agree sampleSchedule 5 (fun _ => true) (by decide)

/-- C7: for every Day of a Schedule that passed construction, the session
sequence is gap-free and contiguous — each session's endTime equals the
next session's startTime, the first session starts at the Day's startTime
and the last session ends at the Day's endTime. -/
theorem build_day_sessions_contiguous (nm tz tzd : String) (facts : List Day)
    (s : Schedule) (hbuild : buildSchedule nm tz tzd facts = some s) :
    ∀ d ∈ s.days,
      d.sessions.head?.map Session.startTime = some d.startTime ∧
      d.sessions.getLast?.map Session.endTime = some d.endTime ∧
      ∀ (i : Nat) (h : i + 1 < d.sessions.length),
        (d.sessions.get ⟨i, Nat.lt_of_succ_lt h⟩).endTime =
          (d.sessions.get ⟨i + 1, h⟩).startTime := by
  have hb : s.Built := by
    simp only [buildSchedule] at hbuild
    split at hbuild
    · next hv =>
        rw [← Option.some.inj hbuild]
        exact hv
    · next hv => simp at hbuild
  intro d hd
  obtain ⟨_, hval, _⟩ := built_spec hb
  obtain ⟨⟨s0, hh0, hs0⟩, ⟨sl, hl0, hsl⟩, _, hchain2⟩ := day_valid_spec (hval d hd)
  refine ⟨?_, ?_, sessionsContiguous_index d.sessions hchain2⟩
  · rw [hh0]
    simp [hs0]
  · rw [hl0]
    simp [hsl]

/-- C7 witness: the theorem applied to a build of the sample data,
instantiated at the first sample Day. -/
theorem build_day_sessions_contiguous_witness :
    sampleDayA.sessions.head?.map Session.startTime = some sampleDayA.startTime ∧
    sampleDayA.sessions.getLast?.map Session.endTime = some sampleDayA.endTime ∧
    ∀ (i : Nat) (h : i + 1 < sampleDayA.sessions.length),
      (sampleDayA.sessions.get ⟨i, Nat.lt_of_succ_lt h⟩).endTime =
        (sampleDayA.sessions.get ⟨i + 1, h⟩).startTime :=
  build_day_sessions_contiguous "SAMPLE" "UTC" "UTC" [sampleDayA, sampleDayB]
    sampleSchedule (by decide) sampleDayA (by decide)

/-- C8: setDefaults validates the bytes (validation abstracted as the
external parser predicate) and only if valid replaces the cached defaults,
returning success; invalid bytes leave the cache unchanged and report
failure through the Bool result rather than an error. -/
theorem setDefaults_validate_swap (valid : List Nat → Bool) (m : DefaultsManager)
    (data : List Nat) :
    (setDefaults valid m data).fst = valid data ∧
    (setDefaults valid m data).snd.cache = (if valid data then data else m.cache) := by
  unfold setDefaults
  cases hv : valid data <;> simp

/-- C9: setDefaults is idempotent on valid input — two calls with the same
valid bytes both report success and leave the cache content identical to a
single call. -/
theorem setDefaults_idempotent (valid : List Nat → Bool) (m : DefaultsManager)
    (data : List Nat) (h : valid data = true) :
    (setDefaults valid m data).fst = true ∧
    (setDefaults valid ((setDefaults valid m data).snd) data).fst = true ∧
    (setDefaults valid ((setDefaults valid m data).snd) data).snd.cache =
      (setDefaults valid m data).snd.cache := by
  unfold setDefaults
  simp [h]

/-- C9 witness: the theorem applied to a nonemptiness validator, the empty
cache and the byte list [1, 2]. -/
theorem setDefaults_idempotent_witness :
    (setDefaults (fun l => !l.isEmpty) ⟨[]⟩ [1, 2]).fst = true ∧
    (setDefaults (fun l => !l.isEmpty)
        ((setDefaults (fun l => !l.isEmpty) ⟨[]⟩ [1, 2]).snd) [1, 2]).fst = true ∧
    (setDefaults (fun l => !l.isEmpty)
        ((setDefaults (fun l => !l.isEmpty) ⟨[]⟩ [1, 2]).snd) [1, 2]).snd.cache =
      (setDefaults (fun l => !l.isEmpty) ⟨[]⟩ [1, 2]).snd.cache :=
  setDefaults_idempotent (fun l => !l.isEmpty) ⟨[]⟩ [1, 2] (by decide)

/-- C10: every modelled query operation of Schedule is a total function —
for every input, including extreme int64 and int32 values, which the
unbounded Int argument subsumes, the result is a well-defined optional
value whose payload always comes from the Schedule's own data, and the
metadata accessors always return the stored strings; the getInstance
factories are external-parser territory and are not covered. -/
theorem query_ops_total_safe (s : Schedule) (t dayId ymd : Int) (f : SessionFilter) :
    (s.getDayByTime t).all (fun d => decide (d ∈ s.days)) = true ∧
    (s.getDayById dayId).all (fun d => decide (d ∈ s.days)) = true ∧
    (s.getDayByYearMonthDay ymd).all (fun d => decide (d ∈ s.days)) = true ∧
    (s.getSessionByTime t).all (fun x => decide (∃ d ∈ s.days, x ∈ d.sessions)) = true ∧
    (s.getNearestSessionByTime t f).all
      (fun x => decide (∃ d ∈ s.days, x ∈ d.sessions)) = true ∧
    (s.findNearestSessionByTime t f).all
      (fun x => decide (∃ d ∈ s.days, x ∈ d.sessions)) = true ∧
    s.getName = s.name ∧ s.getTimeZoneId = s.timeZoneId ∧
    s.getTimeZoneDisplayName = s.timeZoneDisplayName := by
  refine ⟨?_, ?_, ?_, ?_, ?_, ?_, rfl, rfl, rfl⟩
  · cases hr : s.getDayByTime t with
    | none => rfl
    | some d =>
        unfold Schedule.getDayByTime at hr
        show decide (d ∈ s.days) = true
        exact decide_eq_true (List.mem_of_find?_eq_some hr)
  · cases hr : s.getDayById dayId with
    | none => rfl
    | some d =>
        unfold Schedule.getDayById at hr
        cases hh : s.days.head? with
        | none => rw [hh] at hr; simp at hr
        | some d0 =>
            rw [hh] at hr
            have hr2 : (if 0 ≤ dayId - d0.dayId
                then s.days[(dayId - d0.dayId).toNat]? else none) = some d := hr
            by_cases h0 : (0 : Int) ≤ dayId - d0.dayId
            · rw [if_pos h0] at hr2
              show decide (d ∈ s.days) = true
              exact decide_eq_true (List.getElem?_mem hr2)
            · rw [if_neg h0] at hr2
              simp at hr2
  · cases hr : s.getDayByYearMonthDay ymd with
    | none => rfl
    | some d =>
        unfold Schedule.getDayByYearMonthDay at hr
        show decide (d ∈ s.days) = true
        exact decide_eq_true (List.mem_of_find?_eq_some hr)
  · cases hr : s.getSessionByTime t with
    | none => rfl
    | some x =>
        unfold Schedule.getSessionByTime at hr
        cases hdt : s.getDayByTime t with
        | none => rw [hdt] at hr; simp at hr
        | some d =>
            rw [hdt] at hr
            have hr2 : d.sessions.find?
                (fun x2 => decide (x2.startTime ≤ t) && decide (t < x2.endTime))
                = some x := hr
            have hdm : d ∈ s.days := by
              unfold Schedule.getDayByTime at hdt
              exact List.mem_of_find?_eq_some hdt
            show decide (∃ d2 ∈ s.days, x ∈ d2.sessions) = true
            exact decide_eq_true ⟨d, hdm, List.mem_of_find?_eq_some hr2⟩
  · cases hr : s.getNearestSessionByTime t f with
    | none => rfl
    | some x =>
        unfold Schedule.getNearestSessionByTime at hr
        by_cases hir : s.inRange t = true
        · rw [if_pos hir] at hr
          obtain ⟨d, hd, hx, _, _⟩ := scanDays_some_mem scanBound (daysFromTime t s.days) x hr
          have hd2 : d ∈ s.days := daysFromTime_mem s.days d (List.mem_of_mem_take hd)
          show decide (∃ d2 ∈ s.days, x ∈ d2.sessions) = true
          exact decide_eq_true ⟨d, hd2, hx⟩
        · rw [if_neg hir] at hr
          simp at hr
  · cases hr : s.findNearestSessionByTime t f with
    | none => rfl
    | some x =>
        unfold Schedule.findNearestSessionByTime at hr
        cases hdf : daysFromTime t s.days with
        | nil =>
            rw [hdf] at hr
            cases hl : s.days.getLast? with
            | none => rw [hl] at hr; simp at hr
            | some dn =>
                rw [hl] at hr
                have hr2 : scanDays t f scanBound [dn] = some x := hr
                obtain ⟨d, hd, hx, _, _⟩ := scanDays_some_mem scanBound [dn] x hr2
                have hdn : d = dn := by
                  have hm := List.mem_of_mem_take hd
                  simp at hm
                  exact hm
                subst hdn
                show decide (∃ d2 ∈ s.days, x ∈ d2.sessions) = true
                exact decide_eq_true ⟨d, mem_of_getLast_some hl, hx⟩
        | cons a rest =>
            rw [hdf] at hr
            have hr2 : scanDays t f scanBound (a :: rest) = some x := hr
            obtain ⟨d, hd, hx, _, _⟩ := scanDays_some_mem scanBound (a :: rest) x hr2
            have hd2 : d ∈ s.days := by
              have hm := List.mem_of_mem_take hd
              rw [← hdf] at hm
              exact daysFromTime_mem s.days d hm
            show decide (∃ d2 ∈ s.days, x ∈ d2.sessions) = true
            exact decide_eq_true ⟨d, hd2, hx⟩

end DxSchedule
